import Mathlib

set_option maxRecDepth 100000

/-!
Verification of the natural-language specification of the hashids-python
repository (single source file hashids.py, version 0.8.3) against a shallow
embedding of that source in Lean.

Modelling conventions:
* Python strings are embedded as `List Char`; `ord` is `Char.toNat`.
* Python non-negative integers are `Nat`; `//` and `%` on them coincide with
  `Nat` division and modulo.
* Fallible code returns `Except PyErr _`; the constructors name the Python
  exception that the corresponding source line raises.
* `float` division in `_index_from_ratio` (divisors 3.5 and 12) is modelled by
  the exact rational ceiling, which agrees with Python's
  `int(ceil(dividend / divisor))` for every realistic alphabet length.
* Indexing that the source performs with `s[k]` is modelled with `getD`;
  every such site is only reached (for codecs produced by construction) with
  the index in bounds, which the construction invariant lemmas below make
  precise.
-/

/-- Python exceptions that the embedded code can raise. -/
inductive PyErr where
  | zeroDivisionError
  | typeError
  | attributeError
deriving DecidableEq, Repr

/-- A small universe of Python values passed to the public entry points:
integers, floats with an exact integral value (a non-integral float already
fails the `number == int(number)` test in `_is_uint`, behaving like a negative
integer there), and strings. -/
inductive PyVal where
  | int (n : Int)
  | float (q : Int)
  | str (s : List Char)
deriving DecidableEq, Repr

/-- hashids.py `_is_uint`: `number == int(number) and number >= 0`, with
`ValueError` from `int(...)` caught and turned into `False`.  For an `int` or
an integral-valued `float` the equality test holds, so the result is the sign
test; for a string, `int(s)` either raises `ValueError` (caught, `False`) or
yields an `int` that is never `==` to the string, so the result is `False`. -/
def _is_uint : PyVal → Bool
  | PyVal.int n => decide (0 ≤ n)
  | PyVal.float q => decide (0 ≤ q)
  | PyVal.str _ => false

/-- hashids.py `_is_str`: `isinstance(candidate, basestring/str)`. -/
def _is_str : PyVal → Bool
  | PyVal.str _ => true
  | _ => false

/-- Python truthiness test `not hashid` used at the top of `decrypt`:
`0`, `0.0` and the empty string are falsy. -/
def pyFalsy : PyVal → Bool
  | PyVal.int n => n == 0
  | PyVal.float q => q == 0
  | PyVal.str s => s.isEmpty

/-- Whether a `PyVal` is a Python float. -/
def isPyFloat : PyVal → Bool
  | PyVal.float _ => true
  | _ => false

/-- Value of a known-int `PyVal` as a `Nat` (only applied after `_is_uint`
has accepted every element and floats have been excluded). -/
def pyValToNat : PyVal → Nat
  | PyVal.int n => n.toNat
  | _ => 0

/-- hashids.py `_index_from_ratio`: `int(ceil(dividend / divisor))`, with the
divisor given here as the exact fraction `divisorNum / divisorDen`
(3.5 = 7/2 and 12 = 12/1). -/
def _index_from_ratio (dividend divisorNum divisorDen : Nat) : Nat :=
  (dividend * divisorDen + (divisorNum - 1)) / divisorNum

/-- One iteration of the hashids.py `_reorder` loop at loop index `i`
(`i` runs from `len(string) - 1` down to `1`).  `v` is the salt cursor and
`p` the accumulator; the two string-slicing assignments of the source swap the
characters at positions `j` and `i`.  Returns the updated
`(v, p, string)`. -/
def _reorderStep (salt : List Char) (i v p : Nat) (string : List Char) :
    Nat × Nat × List Char :=
  let v2 := v % salt.length
  let integer := (salt.getD v2 default).toNat
  let p2 := p + integer
  let j := (integer + v2 + p2) % i
  let temp := string.getD j default
  let string2 := string.take j ++ [string.getD i default] ++ string.drop (j+1)
  let string3 := string2.take i ++ [temp] ++ string2.drop (i+1)
  (v2 + 1, p2, string3)

/-- Loop of hashids.py `_reorder`, recursing on the loop index. -/
def _reorderGo (salt : List Char) : Nat → Nat → Nat → List Char → List Char
  | 0, _, _, string => string
  | i+1, v, p, string =>
    let r := _reorderStep salt (i+1) v p string
    _reorderGo salt i r.1 r.2.1 r.2.2

/-- hashids.py `_reorder`: the salted deterministic shuffle.  Returns the
input unchanged when the salt is empty. -/
def _reorder (string salt : List Char) : List Char :=
  if salt.length = 0 then string
  else _reorderGo salt (string.length - 1) 0 0 string

/-- Loop of hashids.py `_hash`: prepend `alphabet[number % len]`, divide
`number` by `len`, stop when the quotient is zero.  Modelled with an explicit
fuel: `number + 1` iterations always suffice because with at least two
alphabet characters the quotient strictly decreases; for a shorter alphabet
the Python loop never terminates, and the fuel escape (returning the partial
accumulator) is unreachable for constructed codecs. -/
def _hashGo (alphabet : List Char) : Nat → Nat → List Char → List Char
  | 0, _, hashed => hashed
  | fuel+1, number, hashed =>
    let hashed2 := alphabet.getD (number % alphabet.length) default :: hashed
    let number2 := number / alphabet.length
    if number2 = 0 then hashed2
    else _hashGo alphabet fuel number2 hashed2

/-- hashids.py `_hash`. -/
def _hash (number : Nat) (alphabet : List Char) : List Char :=
  _hashGo alphabet (number + 1) number []

/-- Loop of hashids.py `_unhash`: for the character at offset `i`, look up its
first index in `alphabet` (Python `str.index`, which raises `ValueError` when
the character is absent — modelled as `none`) and add
`position * len_alphabet ** (len_hash - i - 1)`. -/
def _unhashGo (alphabet : List Char) (lenHash lenA : Nat) :
    List Char → Nat → Nat → Option Nat
  | [], _, number => some number
  | c :: rest, i, number =>
    match alphabet.findIdx? (fun y => y == c) with
    | none => none
    | some position =>
      _unhashGo alphabet lenHash lenA rest (i+1)
        (number + position * lenA ^ (lenHash - i - 1))

/-- hashids.py `_unhash`. -/
def _unhash (hashed alphabet : List Char) : Option Nat :=
  _unhashGo alphabet hashed.length alphabet.length hashed 0 0

/-- The fixed separator candidate set of `Hashids.__init__`. -/
def sepCandidates : List Char := "cfhistuCFHISTU".toList

/-- Line 119 of hashids.py: the candidate separators present in the raw
alphabet, in candidate order. -/
def initSeparators (alphabet : List Char) : List Char :=
  sepCandidates.filter (fun x => alphabet.contains x)

/-- Lines 120-121 of hashids.py: keep the first occurrence of every character
of the raw alphabet that is not a separator (`alphabet.index(x) == i and
x not in separators`). -/
def initAlphabet (alphabet : List Char) (separators : List Char) : List Char :=
  (alphabet.enum.filter
      (fun p => alphabet.findIdx (fun y => y == p.2) == p.1
        && !separators.contains p.2)).map (fun p => p.2)

/-- The object built by `Hashids.__init__`, holding exactly the five
attributes that the constructor assigns.  In particular there is no
`_guards_re` and no `_separators_re` attribute: the constructor never creates
them (the helper `_re_class` in the source is never called). -/
structure Hashids where
  _min_length : Nat
  _salt : List Char
  _alphabet : List Char
  _guards : List Char
  _separators : List Char
deriving DecidableEq, Repr

/-- Lines 128-138 of hashids.py: salt-shuffle the separators, then, when they
are empty or too few for the ratio, move characters from the front of the
alphabet into the separators.  Returns `(alphabet, separators)`. -/
def _topUp (salt a1 s1 : List Char) : List Char × List Char :=
  let s2 := _reorder s1 salt
  let minSep := _index_from_ratio a1.length 7 2
  if s2.isEmpty || s1.length < minSep then
    let minSep2 := if minSep == 1 then 2 else minSep
    if s1.length < minSep2 then
      let split_at := minSep2 - s1.length
      (a1.drop split_at, s2 ++ a1.take split_at)
    else (a1, s2)
  else (a1, s2)

/-- Lines 141-147 of hashids.py: extract the guards from the separators (when
the alphabet is shorter than 3) or from the alphabet.  Returns
`(alphabet, separators, guards)`. -/
def _guardSplit (a3 s3 : List Char) (lenAlphabet : Nat) :
    List Char × List Char × List Char :=
  let numGuards := _index_from_ratio lenAlphabet 12 1
  if lenAlphabet < 3 then (a3, s3.drop numGuards, s3.take numGuards)
  else (a3.drop numGuards, s3, a3.take numGuards)

/-- The `ValueError` message of `Hashids.__init__`. -/
def alphabetError : String := "Alphabet must contain at least 16 unique characters."

/-- hashids.py `Hashids.__init__`: `min_length` is clamped with
`max(int(min_length), 0)` (here `Int.toNat`); the raw alphabet is split into
separators and a deduplicated working alphabet; construction fails when fewer
than 16 usable characters remain; then separators are topped up and the
guards split off. -/
def mkHashids (salt : List Char) (min_length : Int) (alphabet0 : List Char) :
    Except String Hashids :=
  let s1 := initSeparators alphabet0
  let a1 := initAlphabet alphabet0 s1
  if a1.length + s1.length < 16 then Except.error alphabetError
  else
    let p := _topUp salt a1 s1
    let a3 := _reorder p.1 salt
    let g := _guardSplit a3 p.2 p.1.length
    Except.ok
      { _min_length := min_length.toNat
        _salt := salt
        _alphabet := g.1
        _guards := g.2.2
        _separators := g.2.1 }

/-- Line 178 of hashids.py: `values_hash = sum(x % (i + 100) ...)`. -/
def _values_hash (values : List Nat) : Nat :=
  (values.enum.map (fun p => p.2 % (p.1 + 100))).sum

/-- The `for i, value in enumerate(values)` loop of `Hashids._encode`
(lines 182-190), threading the re-shuffled alphabet and the accumulated
output.  For every value the alphabet is shuffled with
`(lottery + salt + alphabet)[:len_alphabet]`, the value is hashed, and for all
but the last value a separator chosen by `value % (ord(last[0]) + i)` is
appended.  When `ord(last[0]) + i` is zero (possible only for `i = 0` with a
NUL leading digit) Python raises `ZeroDivisionError`.  Returns the encoded
string together with the final alphabet (which the padding loop reuses). -/
def _encodeLoop (salt : List Char) (lottery : Char) (lenAlphabet : Nat)
    (separators : List Char) (n : Nat) :
    List Nat → Nat → List Char → List Char → Except PyErr (List Char × List Char)
  | [], _, alphabet, encoded => Except.ok (encoded, alphabet)
  | value :: rest, i, alphabet, encoded =>
    let alphabet_salt := (lottery :: (salt ++ alphabet)).take lenAlphabet
    let alphabet2 := _reorder alphabet alphabet_salt
    let last := _hash value alphabet2
    let encoded2 := encoded ++ last
    if i < n - 1 then
      let divisor := (last.headD default).toNat + i
      if divisor = 0 then Except.error PyErr.zeroDivisionError
      else
        let value2 := value % divisor
        let encoded3 :=
          encoded2 ++ [separators.getD (value2 % separators.length) default]
        _encodeLoop salt lottery lenAlphabet separators n rest (i+1) alphabet2 encoded3
    else
      _encodeLoop salt lottery lenAlphabet separators n rest (i+1) alphabet2 encoded2

/-- Lines 192-200 of hashids.py: when the encoded string is shorter than the
minimum length, prepend a guard chosen from `values_hash` and `ord` of the
first character, and if still short append a guard chosen from `values_hash`
and `ord` of the character at index 2. -/
def _encodeGuarded (guards : List Char) (min_length values_hash : Nat)
    (encoded : List Char) : List Char :=
  if encoded.length < min_length then
    let guard_index := (values_hash + (encoded.getD 0 default).toNat) % guards.length
    let encoded2 := guards.getD guard_index default :: encoded
    if encoded2.length < min_length then
      let guard_index2 :=
        (values_hash + (encoded2.getD 2 default).toNat) % guards.length
      encoded2 ++ [guards.getD guard_index2 default]
    else encoded2
  else encoded

/-- The `while len(encoded) < min_length` padding loop of `Hashids._encode`
(lines 202-209): shuffle the alphabet with itself, wrap the encoded string
with the two halves of the alphabet, and trim symmetrically
(`excess // 2` from the left, keeping exactly `min_length`) on overshoot.
The loop runs at most `min_length` times when the alphabet is non-empty, so a
fuel of `min_length` is exact; the `fuel = 0` and empty-alphabet escapes are
unreachable for constructed codecs (with an empty alphabet the Python loop
would never terminate). -/
def _encodePad (min_length split_at : Nat) :
    Nat → List Char → List Char → List Char
  | 0, _, encoded => encoded
  | fuel+1, alphabet, encoded =>
    if encoded.length < min_length then
      if alphabet.isEmpty then encoded
      else
        let alphabet2 := _reorder alphabet alphabet
        let encoded2 := alphabet2.drop split_at ++ encoded ++ alphabet2.take split_at
        let excess := encoded2.length - min_length
        if 0 < excess then (encoded2.drop (excess / 2)).take min_length
        else _encodePad min_length split_at fuel alphabet2 encoded2
    else encoded

/-- Lines 175-190 of `Hashids._encode`: the lottery character and the
per-value encoding loop.  Returns the natural encoding (before guards and
padding) together with the final alphabet. -/
def _encodeBody (h : Hashids) (values : List Nat) :
    Except PyErr (List Char × List Char) :=
  let values_hash := _values_hash values
  let lottery := h._alphabet.getD (values_hash % h._alphabet.length) default
  _encodeLoop h._salt lottery h._alphabet.length h._separators values.length
    values 0 h._alphabet [lottery]

/-- hashids.py `Hashids._encode`: body loop, then guard characters, then the
padding loop with `split_at = len_alphabet // 2`. -/
def _encode (h : Hashids) (values : List Nat) : Except PyErr (List Char) :=
  match _encodeBody h values with
  | Except.error e => Except.error e
  | Except.ok (encoded, alphabet2) =>
    let encoded2 := _encodeGuarded h._guards h._min_length (_values_hash values) encoded
    Except.ok
      (_encodePad h._min_length (h._alphabet.length / 2) h._min_length alphabet2 encoded2)

/-- hashids.py `Hashids.encrypt`: return the empty string unless `values` is
non-empty and every element passes `_is_uint`.  A float element passes
`_is_uint` when its value is a non-negative integer, but then
`alphabet[values_hash % len(alphabet)]` on line 179 raises `TypeError`
(`values_hash` is a float as soon as one summand is); otherwise all elements
are non-negative ints and the numeric `_encode` runs. -/
def encrypt (h : Hashids) (values : List PyVal) : Except PyErr (List Char) :=
  if values.isEmpty || !(values.all _is_uint) then Except.ok []
  else if values.any isPyFloat then Except.error PyErr.typeError
  else _encode h (values.map pyValToNat)

/-- hashids.py `Hashids._decode`: its first statement,
`parts = self._guards_re.split(hashid)`, reads the attribute `_guards_re`,
which `__init__` never assigns (it only assigns `_min_length`, `_salt`,
`_alphabet`, `_guards`, `_separators`; the `_re_class` helper is never
called).  Advancing the generator therefore raises `AttributeError`
unconditionally; the rest of the body is unreachable. -/
def _decode (_h : Hashids) (_hashid : List Char) : Except PyErr (List Nat) :=
  Except.error PyErr.attributeError

/-- hashids.py `Hashids.decrypt`: empty tuple for falsy or non-string input,
otherwise `tuple(self._decode(hashid))` with every exception caught by the
bare `except:` and converted to the empty tuple. -/
def decrypt (h : Hashids) (hashid : PyVal) : List Nat :=
  if pyFalsy hashid || !(_is_str hashid) then []
  else
    match hashid with
    | PyVal.str s =>
      match _decode h s with
      | Except.ok ns => ns
      | Except.error _ => []
    | _ => []

/-- The 62-character default alphabet of `Hashids.__init__`. -/
def defaultAlphabet : List Char :=
  "abcdefghijklmnopqrstuvwxyzABCDEFGHIJKLMNOPQRSTUVWXYZ1234567890".toList

/-- The salt of the doctest examples in the source. -/
def arbitrarySalt : List Char := "arbitrary salt".toList

/-- The alphabet of the doctest examples in the source. -/
def smallAlphabet : List Char := "abcdefghijkl".toList

/-- An 18-character alphabet of pairwise distinct characters, none of which is
a separator candidate, containing the NUL character `'\x00'`. -/
def nulAlphabet : List Char :=
  "abdegjk".toList ++ [Char.ofNat 0] ++ "lmnopqrzAB".toList

/-- The codec built from the default configuration
(`salt=''`, `min_length=0`, default alphabet). -/
def defaultCodec : Hashids :=
  (mkHashids [] 0 defaultAlphabet).toOption.getD ⟨0, [], [], [], []⟩

/-- The codec built from `salt=''`, `min_length=5` and `nulAlphabet`. -/
def nulCodec : Hashids :=
  (mkHashids [] 5 nulAlphabet).toOption.getD ⟨0, [], [], [], []⟩

/-- The string the default codec encodes `[1, 2, 3]` to. -/
def o2fXhV : List Char := "o2fXhV".toList

/-- The codec built from `salt=''`, `min_length=8` and the default alphabet. -/
def minLenCodec : Hashids :=
  (mkHashids [] 8 defaultAlphabet).toOption.getD ⟨0, [], [], [], []⟩

/-- The string `minLenCodec` encodes `[1]` to (padded to length 8). -/
def olejRejN : List Char := "olejRejN".toList

/- ------------------------------------------------------------------ -/
/- Helper lemmas: list surgery and the salted shuffle as a permutation -/
/- ------------------------------------------------------------------ -/

theorem take_getD_cons_drop {α : Type} :
    ∀ (l : List α) (n : Nat), n < l.length → ∀ d : α,
      l.take n ++ l.getD n d :: l.drop (n+1) = l := by
  intro l
  induction l with
  | nil => intro n h d; simp at h
  | cons a t ih =>
    intro n h d
    cases n with
    | zero => simp [List.getD]
    | succ m =>
      have hm : m < t.length := by simpa using h
      simp only [List.take_succ_cons, List.getD_cons_succ, List.drop_succ_cons,
        List.cons_append, List.cons.injEq, true_and]
      exact ih m hm d

theorem set_eq_surgery {α : Type} (l : List α) (n : Nat) (h : n < l.length)
    (x : α) : l.take n ++ [x] ++ l.drop (n+1) = l.set n x := by
  rw [List.append_assoc, List.singleton_append, List.set_eq_take_cons_drop x h]

theorem count_set_plus (l : List Char) (n : Nat) (h : n < l.length)
    (x c d : Char) :
    (l.set n x).count c + (if l.getD n d = c then 1 else 0)
      = l.count c + (if x = c then 1 else 0) := by
  conv_rhs => rw [← take_getD_cons_drop l n h d]
  rw [List.set_eq_take_cons_drop x h]
  simp only [List.count_append, List.count_cons, beq_iff_eq]
  split_ifs <;> omega

theorem set_set_perm (l : List Char) (j k : Nat) (hjk : j < k)
    (hk : k < l.length) (d : Char) :
    ((l.set j (l.getD k d)).set k (l.getD j d)).Perm l := by
  rw [List.perm_iff_count]
  intro c
  have h1 : j < l.length := lt_trans hjk hk
  have e2 : (l.set j (l.getD k d)).getD k d = l.getD k d := by
    simp [List.getD, List.getElem?_set_ne (Nat.ne_of_lt hjk)]
  have c1 := count_set_plus (l.set j (l.getD k d)) k (by simpa using hk)
    (l.getD j d) c d
  have c2 := count_set_plus l j h1 (l.getD k d) c d
  rw [e2] at c1
  split_ifs at c1 c2 <;> omega

theorem surgery_perm (s : List Char) (j k : Nat) (hj : j < k)
    (hk : k < s.length) :
    ((s.take j ++ [s.getD k default] ++ s.drop (j+1)).take k
      ++ [s.getD j default]
      ++ (s.take j ++ [s.getD k default] ++ s.drop (j+1)).drop (k+1)).Perm s := by
  have h1 : j < s.length := lt_trans hj hk
  rw [set_eq_surgery s j h1]
  rw [set_eq_surgery _ k (by simpa using hk)]
  exact set_set_perm s j k hj hk default

theorem reorderStep_perm (salt : List Char) (i v p : Nat) (s : List Char)
    (hi : 0 < i) (hlen : i < s.length) :
    ((_reorderStep salt i v p s).2.2).Perm s := by
  unfold _reorderStep
  exact surgery_perm s _ i (Nat.mod_lt _ hi) hlen

theorem reorderGo_perm (salt : List Char) :
    ∀ (i v p : Nat) (s : List Char), i < s.length →
      (_reorderGo salt i v p s).Perm s := by
  intro i
  induction i with
  | zero => intro v p s _; simp [_reorderGo]
  | succ m ih =>
    intro v p s hi
    have hstep := reorderStep_perm salt (m+1) v p s (Nat.succ_pos m) hi
    have hlen3 : m < ((_reorderStep salt (m+1) v p s).2.2).length := by
      rw [hstep.length_eq]; omega
    simpa only [_reorderGo] using
      (ih _ _ _ hlen3).trans hstep

/-- The salted shuffle returns a permutation of its input. -/
theorem reorder_perm (s salt : List Char) : (_reorder s salt).Perm s := by
  unfold _reorder
  split
  · exact List.Perm.refl s
  · cases hs : s with
    | nil => simp [_reorderGo]
    | cons a t =>
      have : s.length - 1 < s.length := by rw [hs]; simp
      rw [← hs]
      exact reorderGo_perm salt (s.length - 1) 0 0 s this

theorem reorder_length (s salt : List Char) :
    (_reorder s salt).length = s.length :=
  (reorder_perm s salt).length_eq

theorem reorder_mem (s salt : List Char) (c : Char) :
    c ∈ _reorder s salt ↔ c ∈ s :=
  (reorder_perm s salt).mem_iff

theorem reorder_nodup (s salt : List Char) :
    (_reorder s salt).Nodup ↔ s.Nodup :=
  (reorder_perm s salt).nodup_iff

/- ------------------------------------------------------------------ -/
/- Helper lemmas: the alphabet partition performed by the constructor  -/
/- ------------------------------------------------------------------ -/

theorem initSeparators_nodup (al : List Char) : (initSeparators al).Nodup :=
  List.Nodup.filter _ (by decide)

theorem initSeparators_len_le (al : List Char) :
    (initSeparators al).length ≤ 14 :=
  le_trans (List.length_filter_le _ _) (by decide)

theorem initAlphabet_nodup (al s : List Char) : (initAlphabet al s).Nodup := by
  unfold initAlphabet
  apply List.Nodup.map_on
  · intro x hx y hy hxy
    simp only [List.mem_filter, Bool.and_eq_true, beq_iff_eq,
      Bool.not_eq_true'] at hx hy
    have h1 : x.1 = y.1 := by
      rw [← hx.2.1, ← hy.2.1, hxy]
    exact Prod.ext h1 hxy
  · exact List.Nodup.filter _ ((List.nodup_enum_map_fst al).of_map _)

theorem initAlphabet_not_mem_seps (al s : List Char) (x : Char)
    (hx : x ∈ initAlphabet al s) : x ∉ s := by
  unfold initAlphabet at hx
  simp only [List.mem_map, List.mem_filter, Bool.and_eq_true, beq_iff_eq,
    Bool.not_eq_true'] at hx
  obtain ⟨p, ⟨_, _, hc⟩, hpx⟩ := hx
  intro hmem
  rw [hpx] at hc
  simp only [List.contains, List.elem_eq_mem, decide_eq_false_iff_not] at hc
  exact hc hmem

theorem initAlphabet_disjoint (al s : List Char) :
    (initAlphabet al s).Disjoint s :=
  fun _ hx hs => initAlphabet_not_mem_seps al s _ hx hs

theorem disjoint_take_drop {l : List Char} (h : l.Nodup) (n : Nat) :
    (l.take n).Disjoint (l.drop n) := by
  have h2 : (l.take n ++ l.drop n).Nodup := by
    rw [List.take_append_drop]; exact h
  exact (List.nodup_append.mp h2).2.2

theorem topUp_spec (salt a1 s1 : List Char)
    (h16 : 16 ≤ a1.length + s1.length) (hs14 : s1.length ≤ 14) :
    2 ≤ (_topUp salt a1 s1).1.length ∧
    ((_topUp salt a1 s1).1.length = 2 → 14 ≤ (_topUp salt a1 s1).2.length) ∧
    1 ≤ (_topUp salt a1 s1).2.length := by
  have hrl : (_reorder s1 salt).length = s1.length := reorder_length s1 salt
  have hre : (_reorder s1 salt).isEmpty = true ↔ s1.length = 0 := by
    rw [List.isEmpty_iff, ← List.length_eq_zero, hrl]
  simp only [_topUp, _index_from_ratio]
  split_ifs with hc hb hm hm
  all_goals
    simp only [List.length_drop, List.length_append, List.length_take, hrl]
  · simp only [Bool.or_eq_true, decide_eq_true_eq, hre, beq_iff_eq] at hc hb hm
    omega
  · simp only [Bool.or_eq_true, decide_eq_true_eq, hre, beq_iff_eq] at hc hb hm
    omega
  · simp only [Bool.or_eq_true, decide_eq_true_eq, hre, beq_iff_eq] at hc hb hm
    omega
  · simp only [Bool.or_eq_true, decide_eq_true_eq, hre, beq_iff_eq] at hc hb hm
    omega
  · simp only [Bool.or_eq_true, decide_eq_true_eq, hre] at hc
    omega

theorem moveSplit_nodup_disjoint (a1 s2 s1 : List Char) (k : Nat)
    (hna : a1.Nodup) (hs2n : s2.Nodup) (hs2m : ∀ x, x ∈ s2 → x ∈ s1)
    (hd : a1.Disjoint s1) :
    (a1.drop k).Nodup ∧ (s2 ++ a1.take k).Nodup ∧
    (a1.drop k).Disjoint (s2 ++ a1.take k) := by
  refine ⟨List.Nodup.sublist (List.drop_sublist _ _) hna, ?_, ?_⟩
  · rw [List.nodup_append]
    refine ⟨hs2n, List.Nodup.sublist (List.take_sublist _ _) hna, ?_⟩
    intro x hx hxt
    exact hd (List.mem_of_mem_take hxt) (hs2m x hx)
  · intro x hxd hx2
    rcases List.mem_append.mp hx2 with hx2 | hx2
    · exact hd (List.mem_of_mem_drop hxd) (hs2m x hx2)
    · exact disjoint_take_drop hna _ hx2 hxd

theorem topUp_nodup_disjoint (salt a1 s1 : List Char) (hna : a1.Nodup)
    (hns : s1.Nodup) (hd : a1.Disjoint s1) :
    (_topUp salt a1 s1).1.Nodup ∧ (_topUp salt a1 s1).2.Nodup ∧
    (_topUp salt a1 s1).1.Disjoint (_topUp salt a1 s1).2 := by
  have hs2n : (_reorder s1 salt).Nodup := (reorder_nodup s1 salt).mpr hns
  have hs2m : ∀ x, x ∈ _reorder s1 salt → x ∈ s1 :=
    fun x hx => (reorder_mem s1 salt x).mp hx
  simp only [_topUp]
  split_ifs with hc hb hm hm
  · exact moveSplit_nodup_disjoint a1 _ s1 _ hna hs2n hs2m hd
  · exact ⟨hna, hs2n, fun x hx hx2 => hd hx (hs2m x hx2)⟩
  · exact moveSplit_nodup_disjoint a1 _ s1 _ hna hs2n hs2m hd
  · exact ⟨hna, hs2n, fun x hx hx2 => hd hx (hs2m x hx2)⟩
  · exact ⟨hna, hs2n, fun x hx hx2 => hd hx (hs2m x hx2)⟩

theorem guardSplit_nodup_disjoint (a3 s3 : List Char) (L : Nat)
    (hna : a3.Nodup) (hns : s3.Nodup) (hd : a3.Disjoint s3) :
    (_guardSplit a3 s3 L).1.Disjoint (_guardSplit a3 s3 L).2.1 ∧
    (_guardSplit a3 s3 L).1.Disjoint (_guardSplit a3 s3 L).2.2 ∧
    (_guardSplit a3 s3 L).2.1.Disjoint (_guardSplit a3 s3 L).2.2 := by
  simp only [_guardSplit]
  split_ifs with hL
  all_goals dsimp only
  · refine ⟨?_, ?_, ?_⟩
    · exact fun x hx hx2 => hd hx (List.mem_of_mem_drop hx2)
    · exact fun x hx hx2 => hd hx (List.mem_of_mem_take hx2)
    · exact fun x hx hx2 => disjoint_take_drop hns _ hx2 hx
  · refine ⟨?_, ?_, ?_⟩
    · exact fun x hx hx2 => hd (List.mem_of_mem_drop hx) hx2
    · exact fun x hx hx2 => disjoint_take_drop hna _ hx2 hx
    · exact fun x hx hx2 => hd (List.mem_of_mem_take hx2) hx

theorem mk_invariants (salt : List Char) (ml : Int) (al : List Char)
    (h : Hashids) (hok : mkHashids salt ml al = Except.ok h) :
    2 ≤ h._alphabet.length ∧ h._separators ≠ [] ∧ h._guards ≠ [] := by
  simp only [mkHashids] at hok
  split at hok
  · simp at hok
  case isFalse hge =>
    injection hok with hok
    subst hok
    dsimp only
    obtain ⟨h2, h14, h1s⟩ :=
      topUp_spec salt (initAlphabet al (initSeparators al)) (initSeparators al)
        (by omega) (initSeparators_len_le al)
    have hL :
        (_reorder (_topUp salt (initAlphabet al (initSeparators al))
            (initSeparators al)).1 salt).length
          = (_topUp salt (initAlphabet al (initSeparators al))
              (initSeparators al)).1.length :=
      reorder_length _ _
    set s1 := initSeparators al with hs1def
    set a1 := initAlphabet al s1 with ha1def
    set p := _topUp salt a1 s1 with hpdef
    set a3 := _reorder p.1 salt with ha3def
    simp only [_guardSplit, _index_from_ratio]
    split_ifs with hlt
    all_goals dsimp only
    · refine ⟨by omega, ?_, ?_⟩
      · rw [← List.length_pos, List.length_drop]
        omega
      · rw [← List.length_pos, List.length_take]
        omega
    · refine ⟨?_, ?_, ?_⟩
      · rw [List.length_drop]
        omega
      · rw [← List.length_pos]
        omega
      · rw [← List.length_pos, List.length_take]
        omega

/- ------------------------------------------------------------------ -/
/- Helper lemmas: the encode pipeline                                  -/
/- ------------------------------------------------------------------ -/

theorem encodeLoop_ok_alphabet_len (salt : List Char) (lottery : Char)
    (lenA : Nat) (separators : List Char) (n : Nat) :
    ∀ (values : List Nat) (i : Nat) (alphabet encoded e a2 : List Char),
      _encodeLoop salt lottery lenA separators n values i alphabet encoded
        = Except.ok (e, a2) → a2.length = alphabet.length := by
  intro values
  induction values with
  | nil =>
    intro i alphabet encoded e a2 hok
    simp only [_encodeLoop, Except.ok.injEq, Prod.mk.injEq] at hok
    rw [← hok.2]
  | cons value rest ih =>
    intro i alphabet encoded e a2 hok
    simp only [_encodeLoop] at hok
    split at hok
    · split at hok
      · simp at hok
      · rw [ih _ _ _ _ _ hok, reorder_length]
    · rw [ih _ _ _ _ _ hok, reorder_length]

theorem encodePad_of_ge (min split fuel : Nat) (alphabet encoded : List Char)
    (hge : min ≤ encoded.length) :
    _encodePad min split fuel alphabet encoded = encoded := by
  cases fuel with
  | zero => rfl
  | succ f =>
    simp only [_encodePad]
    rw [if_neg (by omega)]

theorem encodePad_len_of_lt (min split : Nat) :
    ∀ (fuel : Nat) (alphabet encoded : List Char), alphabet ≠ [] →
      encoded.length < min → min ≤ fuel + encoded.length →
      (_encodePad min split fuel alphabet encoded).length = min := by
  intro fuel
  induction fuel with
  | zero => intro alphabet encoded _ hlt hfe; omega
  | succ f ih =>
    intro alphabet encoded hne hlt hfe
    have hpos : 0 < alphabet.length := List.length_pos.mpr hne
    simp only [_encodePad]
    rw [if_pos hlt]
    rw [if_neg (by simpa [List.isEmpty_iff] using hne)]
    have hA : (_reorder alphabet alphabet).length = alphabet.length :=
      reorder_length _ _
    set A2 := _reorder alphabet alphabet with hA2def
    set E2 := A2.drop split ++ encoded ++ A2.take split with hE2def
    have hE2len : E2.length = encoded.length + alphabet.length := by
      rw [hE2def]
      simp only [List.length_append, List.length_drop, List.length_take, hA]
      omega
    split_ifs with hex
    · simp only [List.length_take, List.length_drop]
      omega
    · by_cases hlm : E2.length < min
      · apply ih
        · rw [← List.length_pos, hA]; omega
        · exact hlm
        · omega
      · rw [encodePad_of_ge _ _ _ _ _ (le_of_not_lt hlm)]
        omega

/- ------------------------------------------------------------------ -/
/- Helper lemmas: the numeric hasher and unhasher                      -/
/- ------------------------------------------------------------------ -/

theorem hashGo_digits (ab : List Char) (hb : 2 ≤ ab.length) :
    ∀ (fuel n : Nat) (acc : List Char), 0 < n → n < fuel →
      _hashGo ab fuel n acc
        = ((Nat.digits ab.length n).reverse.map (fun d => ab.getD d default))
            ++ acc := by
  intro fuel
  induction fuel with
  | zero => intro n acc hn hf; omega
  | succ f ih =>
    intro n acc hn hf
    have h1 : 1 < ab.length := by omega
    simp only [_hashGo]
    by_cases h0 : n / ab.length = 0
    · rw [if_pos h0, Nat.digits_def' h1 hn, h0, Nat.digits_zero]
      simp
    · have hlt : n / ab.length < n := Nat.div_lt_self hn h1
      rw [if_neg h0, ih _ _ (Nat.pos_of_ne_zero h0) (by omega)]
      rw [Nat.digits_def' h1 hn]
      simp [List.map_append, List.append_assoc]

theorem hash_digits (n : Nat) (ab : List Char) (hb : 2 ≤ ab.length) :
    _hash n ab
      = (if n = 0 then [0] else (Nat.digits ab.length n).reverse).map
          (fun d => ab.getD d default) := by
  by_cases hn : n = 0
  · subst hn
    rw [if_pos rfl]
    unfold _hash
    simp only [_hashGo]
    rw [if_pos (by simp)]
    simp
  · rw [if_neg hn]
    unfold _hash
    simpa using
      hashGo_digits ab hb (n+1) n [] (Nat.pos_of_ne_zero hn) (by omega)

theorem findIdx?_getD_nodup (ab : List Char) (hnd : ab.Nodup) :
    ∀ (d : Nat), d < ab.length →
      ab.findIdx? (fun y => y == ab.getD d default) = some d := by
  induction ab with
  | nil => intro d hd; simp at hd
  | cons c t ih =>
    intro d hd
    cases d with
    | zero => simp
    | succ m =>
      have hm : m < t.length := by simpa using hd
      have hmem : t.getD m default ∈ t := by
        rw [List.getD_eq_getElem t default hm]
        exact List.getElem_mem hm
      have hne : ¬ (c == t.getD m default) = true := by
        simp only [beq_iff_eq]
        intro hcontra
        exact (List.nodup_cons.mp hnd).1 (hcontra ▸ hmem)
      rw [List.getD_cons_succ, List.findIdx?_cons, if_neg hne,
        List.findIdx?_succ, ih (List.nodup_cons.mp hnd).2 m hm]
      rfl

theorem unhashGo_eval (ab : List Char) (hnd : ab.Nodup) :
    ∀ (ds : List Nat) (i acc : Nat), (∀ d ∈ ds, d < ab.length) →
      _unhashGo ab (i + ds.length) ab.length
          (ds.map (fun d => ab.getD d default)) i acc
        = some (acc + Nat.ofDigits ab.length ds.reverse) := by
  intro ds
  induction ds with
  | nil => intro i acc _; simp [_unhashGo, Nat.ofDigits_nil]
  | cons d rest ih =>
    intro i acc hds
    simp only [List.map_cons, _unhashGo]
    rw [findIdx?_getD_nodup ab hnd d (hds d (by simp))]
    have hlen : i + (d :: rest).length = (i + 1) + rest.length := by
      simp; omega
    have hexp : i + (d :: rest).length - i - 1 = rest.length := by
      simp
    rw [hexp, hlen]
    dsimp only
    rw [ih (i+1) _ (fun x hx => hds x (by simp [hx]))]
    rw [List.reverse_cons, Nat.ofDigits_append, Nat.ofDigits_singleton,
      List.length_reverse]
    congr 1
    ring

theorem unhash_hash (n : Nat) (ab : List Char) (hb : 2 ≤ ab.length)
    (hnd : ab.Nodup) : _unhash (_hash n ab) ab = some n := by
  rw [hash_digits n ab hb]
  unfold _unhash
  set ds := if n = 0 then [0] else (Nat.digits ab.length n).reverse with hds
  have hbound : ∀ d ∈ ds, d < ab.length := by
    rw [hds]
    split_ifs with h0
    · intro d hd; simp at hd; omega
    · intro d hd
      rw [List.mem_reverse] at hd
      exact Nat.digits_lt_base (by omega) hd
  have hlen : (ds.map (fun d => ab.getD d default)).length = 0 + ds.length := by
    simp
  rw [hlen, unhashGo_eval ab hnd ds 0 0 hbound]
  congr 1
  rw [hds]
  split_ifs with h0
  · simp [Nat.ofDigits_singleton, h0]
  · rw [List.reverse_reverse, Nat.ofDigits_digits]
    omega

/- ------------------------------------------------------------------ -/
/- Claim theorems                                                      -/
/- ------------------------------------------------------------------ -/

/-- C1: the claimed round-trip `decrypt(encrypt(*values)) == tuple(values)`
fails on the code.  Evaluated at the default configuration (empty salt,
`min_length = 0`, default alphabet): `encrypt(1, 2, 3)` returns the string
`o2fXhV`, but `decrypt` of that very string returns the empty tuple (not
`(1, 2, 3)`), because `_decode` reads the never-assigned attribute
`_guards_re` and `decrypt` swallows the resulting `AttributeError`. -/
theorem roundtrip_fails_default_config :
    mkHashids [] 0 defaultAlphabet = Except.ok defaultCodec ∧
    encrypt defaultCodec [PyVal.int 1, PyVal.int 2, PyVal.int 3]
      = Except.ok o2fXhV ∧
    decrypt defaultCodec (PyVal.str o2fXhV) = [] ∧
    ([] : List Nat) ≠ [1, 2, 3] :=
  ⟨rfl, rfl, rfl, by decide⟩

/-- C2: the doctest configuration
`salt='arbitrary salt', min_length=16, alphabet='abcdefghijkl'` is rejected by
the constructor: after separator extraction the working alphabet has 8
characters and the separators 4, and `8 + 4 = 12 < 16` raises `ValueError`,
so `encrypt`/`decrypt` of the documented example cannot even be reached. -/
theorem doctest_configuration_rejected :
    mkHashids arbitrarySalt 16 smallAlphabet = Except.error alphabetError ∧
    (initAlphabet smallAlphabet (initSeparators smallAlphabet)).length = 8 ∧
    (initSeparators smallAlphabet).length = 4 :=
  ⟨rfl, rfl, rfl⟩

/-- C3: `decrypt` is a total function that never propagates an exception and
returns the empty tuple on every failure: the falsy and non-string checks
return `()` directly, and the bare `except:` around `tuple(self._decode(...))`
converts every internal error to `()`.  (Since `_decode` always raises
`AttributeError`, every input is a failure and the result is always `()`.) -/
theorem decrypt_never_raises_returns_empty (h : Hashids) (hashid : PyVal) :
    decrypt h hashid = [] := by
  unfold decrypt
  split_ifs with hc
  · rfl
  · cases hashid <;> simp [_decode]

/-- C4 (amended): `encrypt` returns the empty string, without raising, when
the value sequence is empty or contains an element rejected by `_is_uint`
(a negative number or a string).  The original claim fails for float elements
with non-negative integral value, which pass `_is_uint` and then raise
`TypeError`; see the counterexample. -/
theorem encode_invalid_returns_empty (h : Hashids) (values : List PyVal)
    (hinv : values = [] ∨ ∃ v ∈ values, _is_uint v = false) :
    encrypt h values = Except.ok [] := by
  have hc : (values.isEmpty || !(values.all _is_uint)) = true := by
    rcases hinv with h0 | ⟨v, hv, hvf⟩
    · subst h0; rfl
    · cases hall : values.all _is_uint with
      | false => simp
      | true => exact absurd (List.all_eq_true.mp hall v hv) (by simp [hvf])
  unfold encrypt
  rw [if_pos hc]

/-- C4 witness: `encrypt(-1)` on the default codec returns the empty
string. -/
theorem encode_invalid_returns_empty_witness :
    encrypt defaultCodec [PyVal.int (-1)] = Except.ok [] :=
  encode_invalid_returns_empty defaultCodec [PyVal.int (-1)]
    (Or.inr ⟨PyVal.int (-1), by decide, by decide⟩)

/-- C4 counterexample: the float `2.0` is not a non-negative integer, yet
`encrypt(2.0)` does not return the empty string — `_is_uint(2.0)` is `True`
(`2.0 == int(2.0)` and `2.0 >= 0`), so `_encode` runs and
`alphabet[values_hash % len(alphabet)]` raises `TypeError` because
`values_hash` is a float. -/
theorem encode_whole_float_raises_typeerror :
    mkHashids [] 0 defaultAlphabet = Except.ok defaultCodec ∧
    encrypt defaultCodec [PyVal.float 2] = Except.error PyErr.typeError :=
  ⟨rfl, rfl⟩

/-- C5: construction fails exactly when the deduplicated working alphabet and
the extracted separators together hold fewer than 16 characters; otherwise it
succeeds (the remainder of `__init__` cannot raise). -/
theorem construction_fails_iff_alphabet_small (salt : List Char) (ml : Int)
    (al : List Char) :
    (∃ h, mkHashids salt ml al = Except.ok h) ↔
      16 ≤ (initAlphabet al (initSeparators al)).length
            + (initSeparators al).length := by
  simp only [mkHashids]
  split_ifs with hc
  · constructor
    · rintro ⟨h, hok⟩; simp at hok
    · intro h16; omega
  · constructor
    · intro _; omega
    · intro _; exact ⟨_, rfl⟩

/-- C6 (amended): for every constructed codec and every value sequence on
which `_encode` returns a string (rather than raising `ZeroDivisionError`,
which is possible only when a NUL character of the working alphabet is the
leading digit of a non-final value at position 0 — see the counterexample),
the returned string has length at least `_min_length`, and exactly
`_min_length` whenever the encoding-plus-guards stage is shorter than
`_min_length`, i.e. whenever the padding loop runs. -/
theorem encode_min_length_when_returns (salt : List Char) (ml : Int)
    (al : List Char) (h : Hashids) (hok : mkHashids salt ml al = Except.ok h)
    (values : List Nat) (s : List Char)
    (henc : _encode h values = Except.ok s) :
    h._min_length ≤ s.length ∧
    (∀ e a2, _encodeBody h values = Except.ok (e, a2) →
      (_encodeGuarded h._guards h._min_length (_values_hash values) e).length
          < h._min_length →
      s.length = h._min_length) := by
  obtain ⟨hA, -, -⟩ := mk_invariants salt ml al h hok
  unfold _encode at henc
  cases hbody : _encodeBody h values with
  | error err => rw [hbody] at henc; simp at henc
  | ok pr =>
    obtain ⟨e, a2⟩ := pr
    rw [hbody] at henc
    dsimp only at henc
    injection henc with henc
    have ha2 : a2.length = h._alphabet.length := by
      unfold _encodeBody at hbody
      exact encodeLoop_ok_alphabet_len _ _ _ _ _ _ _ _ _ _ _ hbody
    have ha2ne : a2 ≠ [] := by
      rw [← List.length_pos, ha2]; omega
    constructor
    · by_cases hlt :
        (_encodeGuarded h._guards h._min_length (_values_hash values) e).length
          < h._min_length
      · rw [← henc]
        have hlen := encodePad_len_of_lt h._min_length
          (h._alphabet.length / 2) h._min_length a2 _ ha2ne hlt (by omega)
        omega
      · rw [← henc, encodePad_of_ge h._min_length (h._alphabet.length / 2)
          h._min_length a2 _ (le_of_not_lt hlt)]
        omega
    · intro e' a2' hbody' hlt
      have hee : e = e' ∧ a2 = a2' := by simpa using hbody'
      obtain ⟨he, -⟩ := hee
      subst he
      rw [← henc]
      exact encodePad_len_of_lt h._min_length (h._alphabet.length / 2)
        h._min_length a2 _ ha2ne hlt (by omega)

/-- C6 witness: with `min_length = 8` and the default alphabet, `_encode [1]`
returns the 8-character padded string `olejRejN`. -/
theorem encode_min_length_when_returns_witness :
    minLenCodec._min_length ≤ olejRejN.length ∧
    (∀ e a2, _encodeBody minLenCodec [1] = Except.ok (e, a2) →
      (_encodeGuarded minLenCodec._guards minLenCodec._min_length
          (_values_hash [1]) e).length < minLenCodec._min_length →
      olejRejN.length = minLenCodec._min_length) :=
  encode_min_length_when_returns [] 8 defaultAlphabet minLenCodec rfl [1]
    olejRejN rfl

/-- C6 counterexample: a codec whose working alphabet contains `'\x00'` is
constructible (`nulAlphabet` has 18 usable characters), and for the valid
input `(2, 0)` the separator computation `value %= ord(last[0]) + i`
divides by `ord('\x00') + 0 = 0`, so `encrypt` raises `ZeroDivisionError`
instead of returning a string of length at least `min_length = 5`. -/
theorem encode_nul_alphabet_zero_division :
    mkHashids [] 5 nulAlphabet = Except.ok nulCodec ∧
    encrypt nulCodec [PyVal.int 2, PyVal.int 0]
      = Except.error PyErr.zeroDivisionError :=
  ⟨rfl, rfl⟩

/-- C7: the salted shuffle returns a permutation of its input (equal
multiset of characters), and returns the input unchanged when the salt is
empty.  Determinism in `(s, salt)` is inherent: `_reorder` is a pure
function of exactly these two arguments. -/
theorem reorder_salted_shuffle_spec (s salt : List Char) :
    (_reorder s salt).Perm s ∧ (salt = [] → _reorder s salt = s) := by
  refine ⟨reorder_perm s salt, ?_⟩
  intro hsalt
  subst hsalt
  simp [_reorder]

/-- C7 witness at a concrete string and salt. -/
theorem reorder_salted_shuffle_spec_witness :
    (_reorder smallAlphabet arbitrarySalt).Perm smallAlphabet ∧
    (arbitrarySalt = [] → _reorder smallAlphabet arbitrarySalt = smallAlphabet) :=
  reorder_salted_shuffle_spec smallAlphabet arbitrarySalt

/-- C8: for an alphabet of at least two pairwise-distinct characters,
`_hash` produces the base-`len(alphabet)` representation of `n` (most
significant digit first, one digit `alphabet[0]` for `n = 0`), and `_unhash`
is its left inverse. -/
theorem hash_base_rep_unhash_inverse (n : Nat) (ab : List Char)
    (hb : 2 ≤ ab.length) (hnd : ab.Nodup) :
    _hash n ab
      = (if n = 0 then [0] else (Nat.digits ab.length n).reverse).map
          (fun d => ab.getD d default) ∧
    _unhash (_hash n ab) ab = some n :=
  ⟨hash_digits n ab hb, unhash_hash n ab hb hnd⟩

/-- C8 witness: round trip of 456 through the 12-character alphabet. -/
theorem hash_base_rep_unhash_inverse_witness :
    _unhash (_hash 456 smallAlphabet) smallAlphabet = some 456 :=
  (hash_base_rep_unhash_inverse 456 smallAlphabet (by decide) (by decide)).2

/-- C9: for every successful construction the stored working alphabet,
separators and guards are pairwise disjoint; `encrypt` and `decrypt` never
mutate the codec (it is an immutable value in this embedding), so the
disjointness holds for every subsequent operation. -/
theorem derived_sets_pairwise_disjoint (salt : List Char) (ml : Int)
    (al : List Char) (h : Hashids) (hok : mkHashids salt ml al = Except.ok h) :
    h._alphabet.Disjoint h._separators ∧ h._alphabet.Disjoint h._guards ∧
    h._separators.Disjoint h._guards := by
  simp only [mkHashids] at hok
  split at hok
  · simp at hok
  case isFalse hge =>
    injection hok with hok
    subst hok
    dsimp only
    obtain ⟨hp1, hp2, hpd⟩ :=
      topUp_nodup_disjoint salt (initAlphabet al (initSeparators al))
        (initSeparators al) (initAlphabet_nodup al (initSeparators al))
        (initSeparators_nodup al)
        (initAlphabet_disjoint al (initSeparators al))
    exact guardSplit_nodup_disjoint _ _ _ ((reorder_nodup _ _).mpr hp1) hp2
      (fun x hx h2 => hpd ((reorder_mem _ _ _).mp hx) h2)

/-- C9 witness at the default configuration. -/
theorem derived_sets_pairwise_disjoint_witness :
    mkHashids [] 0 defaultAlphabet = Except.ok defaultCodec ∧
    (defaultCodec._alphabet.Disjoint defaultCodec._separators ∧
     defaultCodec._alphabet.Disjoint defaultCodec._guards ∧
     defaultCodec._separators.Disjoint defaultCodec._guards) :=
  ⟨rfl, derived_sets_pairwise_disjoint [] 0 defaultAlphabet defaultCodec rfl⟩

/-- C10: for every constructed codec and every non-empty string, `decrypt`
returns the empty tuple: `_decode` reads `self._guards_re`, which the
constructor never assigns, so advancing the generator raises
`AttributeError`, and `decrypt` converts that to `()` — including for
strings produced by `encrypt` on the same codec. -/
theorem decrypt_always_empty_for_strings (salt : List Char) (ml : Int)
    (al : List Char) (h : Hashids)
    (_hok : mkHashids salt ml al = Except.ok h)
    (s : List Char) (_hne : s ≠ []) : decrypt h (PyVal.str s) = [] := by
  unfold decrypt
  split_ifs with hc
  · rfl
  · simp [_decode]

/-- C10 witness: the default codec maps the non-empty string it itself
produces for `[1, 2, 3]` back to the empty tuple. -/
theorem decrypt_always_empty_for_strings_witness :
    decrypt defaultCodec (PyVal.str o2fXhV) = [] :=
  decrypt_always_empty_for_strings [] 0 defaultAlphabet defaultCodec rfl
    o2fXhV (by decide)
